import Mathlib

/-!
Verification model of the `memory` media-catalog engine.

The definitions below are a shallow embedding of the Python sources:
`memory/db.py`, `memory/core.py`, `memory/utils.py`, `memory/hasher.py`.
File contents are abstracted to natural numbers; the SHA-256 digest of
`memory/hasher.py` is modelled as the identity on abstract contents
(byte-identical content yields the same digest, distinct content a
distinct digest).  Filesystem paths are modelled as a flag for
absoluteness plus the list of components, mirroring `pathlib` semantics
for `/`, `relative_to`, `parent`, `name`, `stem` and `suffix` as used by
the sources.
-/

namespace Memory

/-- A filesystem path: `pathlib.Path` modelled as an absoluteness flag plus
the list of path components (for an absolute path, the components after the
anchor). -/
structure PathC where
  abs : Bool
  comps : List String
deriving DecidableEq, Repr

/-- Model of `core._from_relative_path`: `base / rel`.  Joining with an
absolute right-hand side yields the right-hand side, as in `pathlib`. -/
def fromRelativePath (rel : PathC) (base : PathC) : PathC :=
  if rel.abs then rel else ⟨base.abs, base.comps ++ rel.comps⟩

/-- Model of `core._to_relative_path`: `path.relative_to(base)` when `base`
is a componentwise prefix (same anchor), otherwise the path unchanged (the
`except` branch returns `str(path)`). -/
def toRelativePath (p : PathC) (base : PathC) : PathC :=
  if p.abs = base.abs ∧ base.comps <+: p.comps then
    ⟨false, p.comps.drop base.comps.length⟩
  else p

/-- `base / name` for a single final component. -/
def pcJoin (base : PathC) (n : String) : PathC :=
  ⟨base.abs, base.comps ++ [n]⟩

/-- `Path.parent`: drop the final component. -/
def pcParent (p : PathC) : PathC :=
  ⟨p.abs, p.comps.dropLast⟩

/-- `Path.name`: the final component. -/
def nameOf (p : PathC) : String :=
  p.comps.getLastD ""

/-- Index of the last occurrence of `.` in a character list, if any. -/
def lastDotIdx : List Char → Option Nat
  | [] => none
  | c :: rest =>
    match lastDotIdx rest with
    | some i => some (i + 1)
    | none => if c = '.' then some 0 else none

/-- `pathlib`'s split of a file name into `stem` and `suffix`: split at the
last dot provided it is neither the first nor the last character. -/
def splitName (n : String) : String × String :=
  let cs := n.data
  match lastDotIdx cs with
  | some i =>
    if 0 < i ∧ i + 1 < cs.length then (⟨cs.take i⟩, ⟨cs.drop i⟩) else (n, "")
  | none => (n, "")

/-- The filesystem: an association list from (absolute) paths to abstract
file contents; the first binding for a path wins. -/
abbrev FS := List (PathC × Nat)

def fsLookup (fs : FS) (p : PathC) : Option Nat :=
  (fs.find? (fun e => e.1 = p)).map (·.2)

/-- Create or overwrite the file at `p`. -/
def fsInsert (fs : FS) (p : PathC) (c : Nat) : FS :=
  (p, c) :: fs

/-- Remove the file at `p` (`Path.unlink` / the removal half of a move). -/
def fsErase (fs : FS) (p : PathC) : FS :=
  fs.filter (fun e => ¬ e.1 = p)

/-- Model of `hasher.calculate_file_hash` (SHA-256 of the file bytes): a
deterministic, collision-free digest of the abstract content, taken to be
the content itself. -/
def calculateFileHash (content : Nat) : Nat := content

/-- Compressed bytes produced by `gzip.compress`, as an opaque wrapper so
that callers cannot confuse them with the plain string. -/
structure GzBlob where
  data : String
deriving DecidableEq, Repr

/-- Model of the external `gzip.compress`: an abstract lossless encoder
(its defining contract is that `gzipDecompress` inverts it). -/
def gzipCompress (s : String) : GzBlob := ⟨s⟩

/-- Model of the external `gzip.decompress`. -/
def gzipDecompress (b : GzBlob) : String := b.data

/-- Extensions recognised as photos by `utils.get_media_type`. -/
def photoExts : List String :=
  [".jpg", ".jpeg", ".png", ".gif", ".bmp", ".tiff", ".webp"]

/-- Extensions recognised as videos by `utils.get_media_type`. -/
def videoExts : List String :=
  [".mp4", ".mov", ".avi", ".mkv", ".webm", ".flv"]

/-- ASCII lowercasing of a string (`str.lower()` on file extensions). -/
def lowerStr (s : String) : String :=
  ⟨s.data.map Char.toLower⟩

/-- Model of `utils.get_media_type` on the file's suffix. -/
def getMediaType (ext : String) : Option String :=
  let e := lowerStr ext
  if e ∈ photoExts then some "photo"
  else if e ∈ videoExts then some "video"
  else none

/-- Model of `utils.generate_timestamp_suffix`: `datetime.now()` is modelled
by an abstract clock value, rendered as a string. -/
def generateTimestampSuffix (clock : Nat) : String :=
  Nat.repr clock

/-- One row of the `files` table, with exactly the columns of
`MemoryDB._create_tables`. -/
structure Row where
  file_hash : Nat
  current_filename : String
  current_path : PathC
  size : Nat
  media_type : String
  date_added : Nat
  extracted_metadata : Option GzBlob
  metadata_extracted : Bool
  uploaded_s3 : Bool
  uploaded_gcloud : Bool
  uploaded_azure : Bool
  perceptual_hash : Option String
deriving DecidableEq, Repr

/-- The `metadata` dictionary that `core._scan_and_process_folder` builds and
passes to `MemoryDB.add_file_metadata`. -/
structure MetaDict where
  file_hash : Nat
  original_filename : String
  current_filename : String
  original_path : PathC
  current_path : PathC
  size : Nat
  media_type : String
  date_added : Nat
  extracted_metadata : Option String
  metadata_extracted : Bool
  perceptual_hash : Option String
deriving DecidableEq, Repr

/-- Python truthiness of `metadata.get('extracted_metadata')`: an absent
value and the empty string are falsy. -/
def metaTruthy : Option String → Bool
  | none => false
  | some s => s ≠ ""

/-- The row built by the `INSERT` statement of `MemoryDB.add_file_metadata`.
The statement lists only eight columns: `file_hash, current_filename,
current_path, size, media_type, date_added, extracted_metadata,
metadata_extracted`; every other column takes its schema default, so
`perceptual_hash` is `NULL` even though the dictionary carries a value. -/
def mkRow (m : MetaDict) : Row :=
  { file_hash := m.file_hash
    current_filename := m.current_filename
    current_path := m.current_path
    size := m.size
    media_type := m.media_type
    date_added := m.date_added
    extracted_metadata :=
      if metaTruthy m.extracted_metadata then
        some (gzipCompress (m.extracted_metadata.getD ""))
      else none
    metadata_extracted := m.metadata_extracted
    uploaded_s3 := false
    uploaded_gcloud := false
    uploaded_azure := false
    perceptual_hash := none }

/-- Model of `MemoryDB.add_file_metadata`: attempt the `INSERT`; a primary
key conflict on `file_hash` raises `sqlite3.IntegrityError`, which is caught
and reported as `False` with the table unchanged. -/
def addFileMetadata (m : MetaDict) (db : List Row) : List Row × Bool :=
  if m.file_hash ∈ db.map Row.file_hash then (db, false)
  else (db ++ [mkRow m], true)

/-- The decompression step of `MemoryDB.get_file_by_hash`: a truthy blob is
replaced by its decompressed string; `NULL` stays `None`.  (An empty byte
string, which `gzip` never produces, would be left as-is; it is represented
by its empty string content.) -/
def readMetaField : Option GzBlob → Option String
  | none => none
  | some b => if b.data = "" then some "" else some (gzipDecompress b)

/-- The dictionary that `MemoryDB.get_file_by_hash` hands back to callers:
the row with `extracted_metadata` transparently decompressed. -/
structure RowView where
  file_hash : Nat
  current_filename : String
  current_path : PathC
  size : Nat
  media_type : String
  date_added : Nat
  extracted_metadata : Option String
  metadata_extracted : Bool
  uploaded_s3 : Bool
  uploaded_gcloud : Bool
  uploaded_azure : Bool
  perceptual_hash : Option String
deriving DecidableEq, Repr

def rowView (r : Row) : RowView :=
  { file_hash := r.file_hash
    current_filename := r.current_filename
    current_path := r.current_path
    size := r.size
    media_type := r.media_type
    date_added := r.date_added
    extracted_metadata := readMetaField r.extracted_metadata
    metadata_extracted := r.metadata_extracted
    uploaded_s3 := r.uploaded_s3
    uploaded_gcloud := r.uploaded_gcloud
    uploaded_azure := r.uploaded_azure
    perceptual_hash := r.perceptual_hash }

/-- Model of `MemoryDB.get_file_by_hash`: point lookup by primary key. -/
def getFileByHash (h : Nat) (db : List Row) : Option RowView :=
  (db.find? (fun r => r.file_hash = h)).map rowView

/-- Model of `json.dumps` on the extractor's string-valued mapping, as
produced by `media.get_media_metadata`.  Its output is the empty object
text exactly for the empty mapping and is never the empty string. -/
def encodeJson (m : List (String × String)) : String :=
  "\x7b" ++ String.intercalate ", "
    (m.map (fun kv => "\x22" ++ kv.1 ++ "\x22: \x22" ++ kv.2 ++ "\x22")) ++ "\x7d"

/-- One candidate filesystem entry seen by the walk of
`core._scan_and_process_folder`.  `meta` is the mapping returned by the
external metadata extractor for this file, `phash` the outcome of
`core._get_perceptual_hash` (`none` when extraction failed), and
`hashErr`/`copyErr` inject an exception raised by `calculate_file_hash`
respectively `shutil.copy2` on this file. -/
structure SFile where
  isFile : Bool
  dir : List String
  name : String
  content : Nat
  size : Nat
  meta : List (String × String)
  phash : Option String
  hashErr : Bool
  copyErr : Bool
deriving DecidableEq, Repr

/-- The mutable state of one scan run: the in-memory managed hash set, the
`files` table, the filesystem, the clock feeding `datetime.now()`, the
progress counter and the count of newly processed files. -/
structure ScanState where
  managed : List Nat
  db : List Row
  fs : FS
  clock : Nat
  counter : Nat
  newCount : Nat
deriving DecidableEq, Repr

/-- Observable actions of the per-file ingest step. -/
inductive Ev where
  | hashed (h : Nat)
  | copied (dest : PathC)
  | inserted (h : Nat)
deriving DecidableEq, Repr

/-- Result of processing one candidate: the successive states after each
state change (the last being the resulting state), the observable events,
and whether the candidate finished without raising. -/
structure ProcOut where
  states : List ScanState
  events : List Ev
  ok : Bool
deriving DecidableEq, Repr

/-- The source path of a candidate. -/
def srcPath (f : SFile) : PathC :=
  ⟨true, f.dir ++ [f.name]⟩

/-- `get_media_type(filepath)` for a candidate: dispatch on its suffix. -/
def mtOf (f : SFile) : Option String :=
  getMediaType (splitName f.name).2

/-- The `metadata` dictionary built for one candidate (`core.py` lines
138-150), with the destination resolved to `destName` and `datetime.now()`
read from `clock`. -/
def mdOf (mem : PathC) (f : SFile) (mt : String) (h : Nat) (destName : String)
    (clock : Nat) : MetaDict :=
  { file_hash := h
    original_filename := f.name
    current_filename := destName
    original_path := toRelativePath (srcPath f) mem
    current_path := toRelativePath (pcJoin mem destName) mem
    size := f.size
    media_type := mt
    date_added := clock
    extracted_metadata := some (encodeJson f.meta)
    metadata_extracted := decide (f.meta ≠ [])
    perceptual_hash := f.phash }

/-- The tail of the per-file step (`core.py` lines 123-159): copy the bytes
to `dest`, extract metadata and fingerprint, insert the record, and update
the in-memory managed set and counters.  `pre` holds the states already
reached for this candidate. -/
def processCopyInsert (mem : PathC) (f : SFile) (mt : String) (h : Nat)
    (destName : String) (pre : List ScanState) (s : ScanState) : ProcOut :=
  if f.copyErr then ⟨pre, [Ev.hashed h], false⟩
  else
    let dest := pcJoin mem destName
    let sC := { s with fs := fsInsert s.fs dest f.content }
    let sD := { sC with clock := sC.clock + 1 }
    let r := addFileMetadata (mdOf mem f mt h destName sC.clock) sD.db
    if r.2 then
      let sE := { sD with db := r.1, newCount := sD.newCount + 1,
                          managed := h :: sD.managed }
      ⟨pre ++ [sC, sE], [Ev.hashed h, Ev.copied dest, Ev.inserted h], true⟩
    else
      ⟨pre ++ [sC, { sD with db := r.1 }], [Ev.hashed h, Ev.copied dest], true⟩

/-- One iteration of the walk of `core._scan_and_process_folder` (lines
84-159): skip non-files, skip anything under `.memory`, skip unrecognised
extensions, hash, dedup against the managed set, resolve the destination
name (timestamp suffix on a different-content occupant, skip on an
identical-content occupant), then copy and insert. -/
def processOne (mem : PathC) (f : SFile) (s : ScanState) : ProcOut :=
  if ¬ f.isFile then ⟨[], [], true⟩
  else
    let s1 := { s with counter := s.counter + 1 }
    if ".memory" ∈ f.dir ++ [f.name] then ⟨[s1], [], true⟩
    else
      match mtOf f with
      | none => ⟨[s1], [], true⟩
      | some mt =>
        if f.hashErr then ⟨[s1], [], false⟩
        else
          let h := calculateFileHash f.content
          if h ∈ s1.managed then ⟨[s1], [Ev.hashed h], true⟩
          else
            let dest0 := pcJoin mem f.name
            match fsLookup s1.fs dest0 with
            | some c =>
              if calculateFileHash c = h then ⟨[s1], [Ev.hashed h], true⟩
              else
                let sn := splitName f.name
                let destName :=
                  sn.1 ++ "_" ++ generateTimestampSuffix s1.clock ++ sn.2
                let s2 := { s1 with clock := s1.clock + 1 }
                processCopyInsert mem f mt h destName [s1, s2] s2
            | none => processCopyInsert mem f mt h f.name [s1] s1

/-- The walk over all candidates.  The whole loop runs inside one `try`,
so the first exception ends the walk; the boolean records whether the loop
completed without raising. -/
def scanFold (mem : PathC) : List SFile → ScanState → ScanState × Bool
  | [], s => (s, true)
  | f :: rest, s =>
    let o := processOne mem f s
    let s' := o.states.getLastD s
    if o.ok then scanFold mem rest s' else (s', false)

/-- A full run of the walk: the final state, and the aggregate count that
the run reports — `none` when an exception cut the run short (the
`except` clause logs the error and no count is printed). -/
def scanRun (mem : PathC) (files : List SFile) (s : ScanState) :
    ScanState × Option Nat :=
  let r := scanFold mem files s
  (r.1, if r.2 then some r.1.newCount else none)

/-- Entry point modelling `core._scan_and_process_folder`: the managed set
is loaded from the store in one bulk read and the new-file count starts at
zero. -/
def scanAndProcessFolder (mem : PathC) (files : List SFile) (db : List Row)
    (fs : FS) (clock : Nat) : ScanState × Option Nat :=
  scanRun mem files ⟨db.map Row.file_hash, db, fs, clock, 0, 0⟩

/-- Every state reached during a run, including all intermediate states
inside each per-file step; an external interruption leaves the system in
one of these. -/
def runTrace (mem : PathC) : List SFile → ScanState → List ScanState
  | [], s => [s]
  | f :: rest, s =>
    let o := processOne mem f s
    if o.ok then s :: o.states ++ runTrace mem rest (o.states.getLastD s)
    else s :: o.states

/-- The copy-before-commit data invariant: every committed row's stored
path resolves to an existing file. -/
def ScanInv (mem : PathC) (s : ScanState) : Prop :=
  ∀ r ∈ s.db, (fsLookup s.fs (fromRelativePath r.current_path mem)).isSome = true

/-- A record as fetched by `core.detect_visual` (rows whose
`perceptual_hash` is not `NULL`): hash key, filename, path, media type and
the perceptual fingerprint as a bit vector (`imagehash.hex_to_hash` of the
stored hex string). -/
structure VRec where
  fh : Nat
  fn : String
  p : String
  mt : String
  ph : List Bool
deriving DecidableEq, Repr

/-- Hamming distance between two fingerprints: `imagehash`'s `hash1 -
hash2` counts the differing bits. -/
def hamming (a b : List Bool) : Nat :=
  ((a.zip b).filter (fun q => ¬ q.1 = q.2)).length

/-- Python's `enumerate`, from a given start index. -/
def enumFromN (n : Nat) : List VRec → List (Nat × VRec)
  | [] => []
  | r :: rest => (n, r) :: enumFromN (n + 1) rest

/-- The inner loop of `core.detect_visual`: scan every record, skipping the
seed's own index and already-visited records; a record within `threshold`
of the seed joins the group and is marked visited. -/
def innerScan (i : Nat) (ph1 : List Bool) (th : Nat) :
    List (Nat × VRec) → List Nat → List (String × String) × List Nat
  | [], visited => ([], visited)
  | (j, r) :: rest, visited =>
    if i = j ∨ r.fh ∈ visited then innerScan i ph1 th rest visited
    else if hamming ph1 r.ph ≤ th then
      let o := innerScan i ph1 th rest (r.fh :: visited)
      ((r.fn, r.p) :: o.1, o.2)
    else innerScan i ph1 th rest visited

/-- The outer loop of `core.detect_visual`: each unvisited record in scan
order seeds a group; groups of size 1 are discarded. -/
def outerScan (all : List (Nat × VRec)) (th : Nat) :
    List (Nat × VRec) → List Nat → List (List (String × String))
  | [], _ => []
  | (i, r) :: rest, visited =>
    if r.fh ∈ visited then outerScan all th rest visited
    else
      let o := innerScan i r.ph th all (r.fh :: visited)
      let group := (r.fn, r.p) :: o.1
      if 1 < group.length then group :: outerScan all th rest o.2
      else outerScan all th rest o.2

/-- Model of `core.detect_visual` on the fetched records: apply the
media-type filters, then the single-pass similarity grouping. -/
def detectVisual (files : List VRec) (videos photos : Bool) (th : Nat) :
    List (List (String × String)) :=
  let fl := files.filter (fun r =>
    (!videos || r.mt == "video") && (!photos || r.mt == "photo"))
  outerScan (enumFromN 0 fl) th (enumFromN 0 fl) []

/-- Result of `core.delete_file_by_id`: the table, the filesystem, whether
the hash was reported as not found, and whether a backing file was
unlinked. -/
structure DelOut where
  db : List Row
  fs : FS
  notFound : Bool
  fileDeleted : Bool
deriving DecidableEq, Repr

/-- Model of `core.delete_file_by_id`: look the hash up; if absent report
not-found and stop.  Otherwise unlink the backing file when it exists,
then delete the row. -/
def deleteFileById (mem : PathC) (h : Nat) (db : List Row) (fs : FS) : DelOut :=
  match db.find? (fun x => x.file_hash = h) with
  | none => ⟨db, fs, true, false⟩
  | some r =>
    let p := fromRelativePath r.current_path mem
    if (fsLookup fs p).isSome then
      ⟨db.filter (fun x => ¬ x.file_hash = h), fsErase fs p, false, true⟩
    else
      ⟨db.filter (fun x => ¬ x.file_hash = h), fs, false, false⟩

/-- A row as seen by the maintenance operation (after column migration the
table has `current_path` and `original_path`). -/
structure MigRec where
  hash : Nat
  cur : PathC
  orig : PathC
deriving DecidableEq, Repr

/-- The store state the maintenance operation works on: the live column
set, the rows, the filesystem and the clock feeding timestamp suffixes. -/
structure MigState where
  cols : List String
  recs : List MigRec
  fs : FS
  clock : Nat
deriving DecidableEq, Repr

/-- The expected column set of `core.migrate_files_table`. -/
def expectedColumns : List String :=
  ["file_hash", "original_filename", "current_filename", "original_path",
   "current_path", "size", "media_type", "date_added", "extracted_metadata",
   "uploaded_s3", "uploaded_gcloud", "uploaded_azure", "metadata_extracted",
   "perceptual_hash"]

/-- The column-migration loop: `ALTER TABLE ... ADD COLUMN` for each
expected column missing from the live set, counting additions. -/
def addMissingColumns : List String → List String → List String × Nat
  | [], cols => (cols, 0)
  | c :: rest, cols =>
    if c ∈ cols then addMissingColumns rest cols
    else
      let o := addMissingColumns rest (cols ++ [c])
      (o.1, o.2 + 1)

/-- The canonical form `core.migrate_paths_to_relative` computes for a
stored path: `_to_relative_path(_from_relative_path(p, memory), memory)`. -/
def canonPath (p : PathC) (mem : PathC) : PathC :=
  toRelativePath (fromRelativePath p mem) mem

/-- Model of `core.migrate_paths_to_relative`: rewrite each row whose
`current_path` or `original_path` is not in canonical form, counting the
updated rows.  `file_hash` is the table's primary key, so the `UPDATE ...
WHERE file_hash = ?` targets exactly the iterated row. -/
def migratePathsToRelative (mem : PathC) : List MigRec → List MigRec × Nat
  | [] => ([], 0)
  | r :: rest =>
    let rc := canonPath r.cur mem
    let ro := canonPath r.orig mem
    let o := migratePathsToRelative mem rest
    if rc = r.cur ∧ ro = r.orig then (r :: o.1, o.2)
    else ({ r with cur := rc, orig := ro } :: o.1, o.2 + 1)

/-- `UPDATE files SET current_path = ? WHERE file_hash = ?`. -/
def updateCurByHash (recs : List MigRec) (h : Nat) (newCur : PathC) :
    List MigRec :=
  recs.map (fun r => if r.hash = h then { r with cur := newCur } else r)

/-- Mutable context of `core.migrate_files_to_memory`: rows, filesystem,
clock, the count of moved files, and whether any generated timestamp-suffix
destination collided with an existing file (in which case `shutil.move`
overwrites it). -/
structure MigCtx where
  recs : List MigRec
  fs : FS
  clock : Nat
  moved : Nat
  collision : Bool
deriving DecidableEq, Repr

/-- The suffixed destination name built on a filename conflict: the stem,
an underscore, a timestamp suffix read from `clock`, then the extension. -/
def suffixedName (n : String) (clock : Nat) : String :=
  (splitName n).1 ++ "_" ++ generateTimestampSuffix clock ++ (splitName n).2

/-- One iteration of `core.migrate_files_to_memory` over a snapshot entry
`(file_hash, current_path)`: skip rows already inside `.memory`, rows whose
file is missing, and rows whose destination holds identical content;
otherwise move the file into `.memory` (timestamp suffix on a
different-content occupant) and update the stored path. -/
def m2mStep (mem : PathC) (e : Nat × PathC) (c : MigCtx) : MigCtx :=
  if pcParent (fromRelativePath e.2 mem) = mem then c
  else
    match fsLookup c.fs (fromRelativePath e.2 mem) with
    | none => c
    | some content =>
      match fsLookup c.fs (pcJoin mem (nameOf (fromRelativePath e.2 mem))) with
      | some dc =>
        if calculateFileHash dc = calculateFileHash content then c
        else
          { recs := updateCurByHash c.recs e.1
              (toRelativePath
                (pcJoin mem
                  (suffixedName (nameOf (fromRelativePath e.2 mem)) c.clock))
                mem)
            fs := fsInsert (fsErase c.fs (fromRelativePath e.2 mem))
              (pcJoin mem
                (suffixedName (nameOf (fromRelativePath e.2 mem)) c.clock))
              content
            clock := c.clock + 1
            moved := c.moved + 1
            collision := c.collision ||
              (fsLookup c.fs
                (pcJoin mem
                  (suffixedName (nameOf (fromRelativePath e.2 mem))
                    c.clock))).isSome }
      | none =>
        { recs := updateCurByHash c.recs e.1
            (toRelativePath
              (pcJoin mem (nameOf (fromRelativePath e.2 mem))) mem)
          fs := fsInsert (fsErase c.fs (fromRelativePath e.2 mem))
            (pcJoin mem (nameOf (fromRelativePath e.2 mem))) content
          clock := c.clock
          moved := c.moved + 1
          collision := c.collision }

/-- The walk of `core.migrate_files_to_memory` over the row snapshot
fetched at its start. -/
def migrateFilesToMemory (mem : PathC) : List (Nat × PathC) → MigCtx → MigCtx
  | [], c => c
  | e :: rest, c => migrateFilesToMemory mem rest (m2mStep mem e c)

/-- Outcome of a full maintenance run: the resulting state and the write
counts of its three phases, plus the suffix-collision flag. -/
structure MigOut where
  state : MigState
  colsAdded : Nat
  pathsRewritten : Nat
  filesMoved : Nat
  collision : Bool
deriving DecidableEq, Repr

/-- Model of `core.migrate_files_table`: additive column migration, then
`migrate_paths_to_relative`, then `migrate_files_to_memory`. -/
def migrateFilesTable (mem : PathC) (s : MigState) : MigOut :=
  let oc := addMissingColumns expectedColumns s.cols
  let op := migratePathsToRelative mem s.recs
  let ctx := migrateFilesToMemory mem (op.1.map (fun r => (r.hash, r.cur)))
    ⟨op.1, s.fs, s.clock, 0, false⟩
  ⟨⟨oc.1, ctx.recs, ctx.fs, ctx.clock⟩, oc.2, op.2, ctx.moved, ctx.collision⟩

/-- A stored path is settled for the relocation phase: its row is skipped
without any write — it already resolves inside `.memory`, or its file is
missing, or the destination name holds identical content. -/
def settledCur (mem : PathC) (fs : FS) (p : PathC) : Prop :=
  pcParent (fromRelativePath p mem) = mem ∨
  fsLookup fs (fromRelativePath p mem) = none ∨
  (∃ c1 c2, fsLookup fs (fromRelativePath p mem) = some c1 ∧
    fsLookup fs (pcJoin mem (nameOf (fromRelativePath p mem))) = some c2 ∧
    calculateFileHash c2 = calculateFileHash c1)

/-- A row whose stored paths are in the canonical form the
path-canonicalization phase computes: re-running the phase rewrites
nothing. -/
def canonFixed (mem : PathC) (r : MigRec) : Prop :=
  canonPath r.cur mem = r.cur ∧ canonPath r.orig mem = r.orig

/-- Concrete fixtures used by the witnesses and counterexamples below. -/
def memW : PathC := ⟨true, ["home", ".memory"]⟩

def st0 : ScanState := ⟨[], [], [], 0, 0, 0⟩

def f1 : SFile := ⟨true, ["src"], "a.jpg", 1, 10, [], none, false, false⟩

def f2 : SFile := ⟨true, ["src2"], "a.jpg", 2, 11, [], none, false, false⟩

def fPh : SFile := ⟨true, ["pics"], "p.jpg", 9, 4, [("Width", "1")], some "cafe", false, false⟩

def fBad : SFile := ⟨true, ["src"], "b.jpg", 3, 5, [], none, true, false⟩

def fMem : SFile := ⟨true, [".memory"], "x.jpg", 4, 5, [], none, false, false⟩

def rowW : Row :=
  ⟨5, "a.jpg", ⟨false, ["a.jpg"]⟩, 10, "photo", 0, none, false, false, false,
   false, none⟩

def mDupW : MetaDict :=
  ⟨5, "a.jpg", "a.jpg", ⟨true, ["s", "a.jpg"]⟩, ⟨false, ["a.jpg"]⟩, 10,
   "photo", 1, some "\x7b\x7d", false, none⟩

def mNewW : MetaDict :=
  ⟨6, "b.jpg", "b.jpg", ⟨true, ["s", "b.jpg"]⟩, ⟨false, ["b.jpg"]⟩, 11,
   "photo", 2, some "\x7b\x22a\x22: 1\x7d", true, some "beef"⟩

def phA : List Bool := List.replicate 64 false

def phB : List Bool := [true, true, true] ++ List.replicate 61 false

def phC : List Bool :=
  [true, true, false, true, true, true, true, true, true, true] ++
    List.replicate 54 false

def vA : VRec := ⟨1, "A.jpg", "pA.jpg", "photo", phA⟩

def vB : VRec := ⟨2, "B.jpg", "pB.jpg", "photo", phB⟩

def vC : VRec := ⟨3, "C.jpg", "pC.jpg", "photo", phC⟩

def migW : MigState :=
  ⟨["file_hash"], [⟨7, ⟨true, ["x", "b.jpg"]⟩, ⟨true, ["x", "b.jpg"]⟩⟩],
   [(⟨true, ["x", "b.jpg"]⟩, 3)], 0⟩

/-! ## Basic lemmas about the path and filesystem models -/

theorem fsLookup_insert (fs : FS) (p q : PathC) (c : Nat) :
    fsLookup (fsInsert fs p c) q = if q = p then some c else fsLookup fs q := by
  by_cases h : q = p
  · subst h
    simp [fsLookup, fsInsert, List.find?]
  · have hpq : ¬ p = q := fun h' => h h'.symm
    simp [fsLookup, fsInsert, List.find?, h, hpq]

theorem fsLookup_erase (fs : FS) (p q : PathC) :
    fsLookup (fsErase fs p) q = if q = p then none else fsLookup fs q := by
  induction fs with
  | nil => by_cases h : q = p <;> simp [fsLookup, fsErase, h]
  | cons e rest ih =>
    by_cases hep : e.1 = p
    · by_cases h : q = p
      · simp_all [fsLookup, fsErase, List.find?, List.filter]
      · have hpq : ¬ p = q := fun h' => h h'.symm
        simp_all [fsLookup, fsErase, List.find?, List.filter, hpq]
    · by_cases heq : e.1 = q
      · by_cases h : q = p <;>
          simp_all [fsLookup, fsErase, List.find?, List.filter]
      · by_cases h : q = p <;>
          simp_all [fsLookup, fsErase, List.find?, List.filter]

theorem toRelativePath_join (mem : PathC) (n : String) :
    toRelativePath (pcJoin mem n) mem = ⟨false, [n]⟩ := by
  have hpre : mem.comps <+: mem.comps ++ [n] := List.prefix_append _ _
  simp [toRelativePath, pcJoin, hpre, List.drop_left]

theorem fromRelativePath_rel (l : List String) (mem : PathC) :
    fromRelativePath ⟨false, l⟩ mem = ⟨mem.abs, mem.comps ++ l⟩ := by
  simp [fromRelativePath]

theorem fromRel_toRel_join (mem : PathC) (n : String) :
    fromRelativePath (toRelativePath (pcJoin mem n) mem) mem = pcJoin mem n := by
  rw [toRelativePath_join, fromRelativePath_rel]
  rfl

theorem pcParent_join (mem : PathC) (n : String) :
    pcParent (pcJoin mem n) = mem := by
  cases mem with
  | mk ab l =>
    simp only [pcParent, pcJoin]
    congr 1
    exact List.dropLast_concat

theorem canonPath_rel (l : List String) (mem : PathC) :
    canonPath ⟨false, l⟩ mem = ⟨false, l⟩ := by
  have hpre : mem.comps <+: mem.comps ++ l := List.prefix_append _ _
  simp [canonPath, fromRelativePath, toRelativePath, hpre, List.drop_left]

theorem canonPath_fix (p mem : PathC) :
    canonPath (canonPath p mem) mem = canonPath p mem := by
  by_cases hab : p.abs = true
  · have h1 : fromRelativePath p mem = p := by simp [fromRelativePath, hab]
    by_cases h2 : p.abs = mem.abs ∧ mem.comps <+: p.comps
    · have h3 : canonPath p mem = ⟨false, p.comps.drop mem.comps.length⟩ := by
        simp [canonPath, h1, toRelativePath, h2]
      rw [h3, canonPath_rel]
    · have h3 : canonPath p mem = p := by
        simp [canonPath, h1, toRelativePath, h2]
      rw [h3, h3]
  · have hab' : p.abs = false := by simpa using hab
    have hp : p = ⟨false, p.comps⟩ := by
      cases p
      simp_all
    rw [hp, canonPath_rel, canonPath_rel]

theorem getLastD_cases {α : Type} (l : List α) (d : α) :
    l.getLastD d = d ∨ l.getLastD d ∈ l := by
  induction l generalizing d with
  | nil => exact Or.inl rfl
  | cons a t ih =>
    rcases ih a with h | h
    · right
      rw [List.getLastD_cons, h]
      exact List.mem_cons_self a t
    · right
      rw [List.getLastD_cons]
      exact List.mem_cons_of_mem a h

theorem find?_append_of_none {α : Type} (p : α → Bool) (l1 l2 : List α)
    (h : ∀ x ∈ l1, ¬ p x = true) :
    List.find? p (l1 ++ l2) = List.find? p l2 := by
  induction l1 with
  | nil => simp
  | cons a t ih =>
    rw [List.cons_append, List.find?_cons_of_neg _ (h a (List.mem_cons_self a t))]
    exact ih (fun x hx => h x (List.mem_cons_of_mem a hx))

/-! ## C1: duplicate-rejecting insert -/

/-- C1: `MemoryDB.add_file_metadata` with an already-present `content_hash`
returns `False` and leaves the table — row count and every column of the
existing rows — untouched; with a novel hash it appends exactly the new row
and returns `True`. -/
theorem insert_if_absent_c1 (m : MetaDict) (db : List Row) :
    (m.file_hash ∈ db.map Row.file_hash →
      addFileMetadata m db = (db, false)) ∧
    (m.file_hash ∉ db.map Row.file_hash →
      addFileMetadata m db = (db ++ [mkRow m], true)) := by
  constructor <;> intro h <;> simp [addFileMetadata, h]

/-- Witness for C1 at a concrete store: hash 5 is present, so the insert is
rejected with the table unchanged. -/
theorem insert_if_absent_c1_witness :
    mDupW.file_hash ∈ [rowW].map Row.file_hash ∧
    addFileMetadata mDupW [rowW] = ([rowW], false) :=
  ⟨by decide, (insert_if_absent_c1 mDupW [rowW]).1 (by decide)⟩

/-! ## C2: the inserted record's fingerprint -/

/-- C2: the claim fails on the code.  For the concrete photo `fPh` whose
fingerprint extraction succeeds (`phash = some "cafe"`), the pipeline
passes the fingerprint in the metadata dictionary, but the `INSERT` of
`MemoryDB.add_file_metadata` omits the `perceptual_hash` column, so the
committed record's fingerprint is `NULL` even though extraction
succeeded. -/
theorem fingerprint_dropped_c2 :
    fPh.phash = some "cafe" ∧
    (scanAndProcessFolder memW [fPh] [] [] 0).1.db.map Row.perceptual_hash =
      [none] ∧
    (scanAndProcessFolder memW [fPh] [] [] 0).2 = some 1 := by
  refine ⟨rfl, ?_, ?_⟩ <;> decide

/-! ## C3: one file's failure ends the walk -/

theorem scanFold_append (mem : PathC) (l1 l2 : List SFile) (s : ScanState) :
    scanFold mem (l1 ++ l2) s =
      if (scanFold mem l1 s).2 = true then
        scanFold mem l2 (scanFold mem l1 s).1
      else scanFold mem l1 s := by
  induction l1 generalizing s with
  | nil => simp [scanFold]
  | cons f rest ih =>
    simp only [List.cons_append, scanFold]
    by_cases hok : (processOne mem f s).ok = true
    · simp [hok, ih]
    · simp [hok]

/-- C3, counterexample to the claim as stated: with the failing candidate
`fBad` first and the processable candidate `f2` second, the run reports no
aggregate count (`none`) and `f2` is never processed — the walk does not
continue past the failure. -/
theorem scan_abort_counterexample_c3 :
    (scanAndProcessFolder memW [fBad, f2] [] [] 0).2 = none ∧
    (scanAndProcessFolder memW [fBad, f2] [] [] 0).1.db = [] := by
  decide

/-- C3 (amended): the `try` of `core._scan_and_process_folder` wraps the
whole walk, so a failure raised while processing one candidate is caught
and logged at the run level, but the remaining candidates are not
processed and no aggregate count is reported; only a run with no per-file
failure reaches its end and reports the count of newly processed files. -/
theorem scan_failure_aborts_run_c3 :
    (∀ (mem : PathC) (pre : List SFile) (f : SFile) (post : List SFile)
        (s : ScanState),
      (scanFold mem pre s).2 = true →
      (processOne mem f (scanFold mem pre s).1).ok = false →
      scanRun mem (pre ++ f :: post) s =
        ((processOne mem f (scanFold mem pre s).1).states.getLastD
           (scanFold mem pre s).1, none)) ∧
    (∀ (mem : PathC) (files : List SFile) (s : ScanState),
      (scanFold mem files s).2 = true →
      (scanRun mem files s).2 = some (scanFold mem files s).1.newCount) := by
  constructor
  · intro mem pre f post s hpre hf
    unfold scanRun
    rw [scanFold_append mem pre (f :: post) s, if_pos hpre]
    simp [scanFold, hf]
  · intro mem files s h
    simp [scanRun, h]

/-- Witness for C3 (amended) at a concrete run: the failing candidate is
first; the run ends there with no reported count, independently of the
candidate after it. -/
theorem scan_failure_aborts_run_c3_witness :
    scanRun memW ([] ++ fBad :: [f2]) st0 =
      ((processOne memW fBad (scanFold memW [] st0).1).states.getLastD
         (scanFold memW [] st0).1, none) :=
  scan_failure_aborts_run_c3.1 memW [] fBad [f2] st0 (by decide) (by decide)

/-! ## C6: metadata compress/decompress round trip -/

/-- C6: a (necessarily non-empty) JSON metadata string written through
`MemoryDB.add_file_metadata` for a novel hash is read back verbatim by
`MemoryDB.get_file_by_hash`: gzip compression on write composed with
decompression on read is the identity, and the caller observes the plain
string, never the compressed blob. -/
theorem metadata_roundtrip_c6 (db : List Row) (m : MetaDict) (s : String)
    (hnew : m.file_hash ∉ db.map Row.file_hash)
    (hs : m.extracted_metadata = some s) (hne : s ≠ "") :
    getFileByHash m.file_hash (addFileMetadata m db).1 =
      some (rowView (mkRow m)) ∧
    (rowView (mkRow m)).extracted_metadata = some s := by
  constructor
  · have hdb : (addFileMetadata m db).1 = db ++ [mkRow m] := by
      simp [addFileMetadata, hnew]
    rw [hdb]
    unfold getFileByHash
    rw [find?_append_of_none]
    · simp [List.find?, mkRow]
    · intro r hr
      simp only [decide_eq_true_eq]
      intro hcontra
      exact hnew (List.mem_map.mpr ⟨r, hr, hcontra⟩)
  · simp [rowView, mkRow, metaTruthy, hs, hne, readMetaField, gzipCompress,
      gzipDecompress]

/-- Witness for C6 at a concrete store and metadata value. -/
theorem metadata_roundtrip_c6_witness :
    getFileByHash mNewW.file_hash (addFileMetadata mNewW [rowW]).1 =
      some (rowView (mkRow mNewW)) ∧
    (rowView (mkRow mNewW)).extracted_metadata = some "\x7b\x22a\x22: 1\x7d" :=
  metadata_roundtrip_c6 [rowW] mNewW "\x7b\x22a\x22: 1\x7d" (by decide) rfl
    (by decide)

/-! ## C8: filename collision at the destination -/

/-- C8: importing two different-content files that share the name `a.jpg`
yields two records, the first stored at the original name and the second at
the stem plus a generated timestamp suffix, each carrying the digest of its
own bytes; and a candidate whose destination occupant has identical content
is skipped without creating a record. -/
theorem name_conflict_import_c8 :
    ((scanAndProcessFolder memW [f1, f2] [] [] 0).1.db.map
        (fun r => (r.file_hash, r.current_filename)) =
      [(1, "a.jpg"), (2, "a_1.jpg")] ∧
      (scanAndProcessFolder memW [f1, f2] [] [] 0).2 = some 2) ∧
    ((scanAndProcessFolder memW [f1] [] [(pcJoin memW "a.jpg", 1)] 0).1.db = [] ∧
      (scanAndProcessFolder memW [f1] [] [(pcJoin memW "a.jpg", 1)] 0).2 =
        some 0) := by
  decide

/-! ## C9: delete by content hash -/

/-- C9: `core.delete_file_by_id` on an absent hash reports not-found and
has no side effects; on a present hash it removes exactly the rows with
that hash, unlinks the backing file when it exists, and touches no other
filesystem entry. -/
theorem delete_by_hash_c9 (mem : PathC) (h : Nat) (db : List Row) (fs : FS) :
    (h ∉ db.map Row.file_hash →
      deleteFileById mem h db fs = ⟨db, fs, true, false⟩) ∧
    (∀ r, db.find? (fun x => x.file_hash = h) = some r →
      (deleteFileById mem h db fs).notFound = false ∧
      (∀ x ∈ (deleteFileById mem h db fs).db, ¬ x.file_hash = h) ∧
      (∀ x ∈ db, ¬ x.file_hash = h → x ∈ (deleteFileById mem h db fs).db) ∧
      ((fsLookup fs (fromRelativePath r.current_path mem)).isSome = true →
        fsLookup (deleteFileById mem h db fs).fs
            (fromRelativePath r.current_path mem) = none ∧
        (deleteFileById mem h db fs).fileDeleted = true) ∧
      (∀ q, ¬ q = fromRelativePath r.current_path mem →
        fsLookup (deleteFileById mem h db fs).fs q = fsLookup fs q)) := by
  constructor
  · intro hno
    have hfind : db.find? (fun x => x.file_hash = h) = none := by
      rw [List.find?_eq_none]
      intro x hx
      simp only [decide_eq_true_eq]
      intro hc
      exact hno (List.mem_map.mpr ⟨x, hx, hc⟩)
    simp [deleteFileById, hfind]
  · intro r hfind
    by_cases hex : (fsLookup fs (fromRelativePath r.current_path mem)).isSome = true
    · have hd : deleteFileById mem h db fs =
          ⟨db.filter (fun x => ¬ x.file_hash = h),
           fsErase fs (fromRelativePath r.current_path mem), false, true⟩ := by
        simp [deleteFileById, hfind, hex]
      rw [hd]
      refine ⟨rfl, ?_, ?_, ?_, ?_⟩
      · intro x hx
        have := (List.mem_filter.mp hx).2
        simpa using this
      · intro x hx hne
        exact List.mem_filter.mpr ⟨hx, by simpa using hne⟩
      · intro _
        rw [fsLookup_erase, if_pos rfl]
        exact ⟨rfl, rfl⟩
      · intro q hq
        rw [fsLookup_erase, if_neg hq]
    · have hd : deleteFileById mem h db fs =
          ⟨db.filter (fun x => ¬ x.file_hash = h), fs, false, false⟩ := by
        simp [deleteFileById, hfind, hex]
      rw [hd]
      refine ⟨rfl, ?_, ?_, ?_, ?_⟩
      · intro x hx
        have := (List.mem_filter.mp hx).2
        simpa using this
      · intro x hx hne
        exact List.mem_filter.mpr ⟨hx, by simpa using hne⟩
      · intro hcontra
        exact absurd hcontra hex
      · intro q _
        rfl

/-- Witness for C9: deleting from an empty store reports not-found with no
side effects. -/
theorem delete_by_hash_c9_witness :
    deleteFileById memW 5 [] [] = ⟨[], [], true, false⟩ :=
  (delete_by_hash_c9 memW 5 [] []).1 (by decide)

/-! ## C10: the catalog folder is never re-ingested -/

/-- C10: a candidate with `.memory` among its path components is skipped
before hashing: the per-file step emits no hash, copy or insert event and
leaves the managed set, the table and the filesystem unchanged. -/
theorem memory_folder_excluded_c10 (mem : PathC) (f : SFile) (s : ScanState)
    (hmem : ".memory" ∈ f.dir ++ [f.name]) :
    (processOne mem f s).events = [] ∧
    ∀ s' ∈ (processOne mem f s).states,
      s'.db = s.db ∧ s'.fs = s.fs ∧ s'.managed = s.managed := by
  by_cases hf : f.isFile = true
  · constructor
    · simp [processOne, hf, hmem]
    · intro s' hs'
      simp [processOne, hf, hmem] at hs'
      subst hs'
      simp
  · constructor
    · simp [processOne, hf]
    · intro s' hs'
      simp [processOne, hf] at hs'

/-- Witness for C10 at a concrete candidate inside `.memory`. -/
theorem memory_folder_excluded_c10_witness :
    (".memory" ∈ fMem.dir ++ [fMem.name]) ∧
    ((processOne memW fMem st0).events = [] ∧
      ∀ s' ∈ (processOne memW fMem st0).states,
        s'.db = st0.db ∧ s'.fs = st0.fs ∧ s'.managed = st0.managed) :=
  ⟨by decide, memory_folder_excluded_c10 memW fMem st0 (by decide)⟩

/-! ## C4: single-pass visual-similarity clustering -/

theorem innerScan_sound (i : Nat) (ph1 : List Bool) (th : Nat) :
    ∀ (l : List (Nat × VRec)) (v : List Nat) (x : String × String),
      x ∈ (innerScan i ph1 th l v).1 →
      ∃ r, (∃ j, (j, r) ∈ l) ∧ x = (r.fn, r.p) ∧ hamming ph1 r.ph ≤ th := by
  intro l
  induction l with
  | nil =>
    intro v x hx
    simp [innerScan] at hx
  | cons e rest ih =>
    intro v x hx
    obtain ⟨j, r⟩ := e
    rw [innerScan] at hx
    by_cases h1 : i = j ∨ r.fh ∈ v
    · rw [if_pos h1] at hx
      obtain ⟨r2, ⟨j2, hj2⟩, hx2, hh⟩ := ih v x hx
      exact ⟨r2, ⟨j2, List.mem_cons_of_mem _ hj2⟩, hx2, hh⟩
    · rw [if_neg h1] at hx
      by_cases h2 : hamming ph1 r.ph ≤ th
      · rw [if_pos h2] at hx
        rcases List.mem_cons.mp hx with hx0 | hx1
        · exact ⟨r, ⟨j, List.mem_cons_self _ _⟩, hx0, h2⟩
        · obtain ⟨r2, ⟨j2, hj2⟩, hx2, hh⟩ := ih (r.fh :: v) x hx1
          exact ⟨r2, ⟨j2, List.mem_cons_of_mem _ hj2⟩, hx2, hh⟩
      · rw [if_neg h2] at hx
        obtain ⟨r2, ⟨j2, hj2⟩, hx2, hh⟩ := ih v x hx
        exact ⟨r2, ⟨j2, List.mem_cons_of_mem _ hj2⟩, hx2, hh⟩

theorem outerScan_shape (all : List (Nat × VRec)) (th : Nat) :
    ∀ (l : List (Nat × VRec)) (v : List Nat) (g : List (String × String)),
      g ∈ outerScan all th l v →
      ∃ i r v', (i, r) ∈ l ∧
        g = (r.fn, r.p) :: (innerScan i r.ph th all (r.fh :: v')).1 := by
  intro l
  induction l with
  | nil =>
    intro v g hg
    simp [outerScan] at hg
  | cons e rest ih =>
    intro v g hg
    obtain ⟨i, r⟩ := e
    rw [outerScan] at hg
    by_cases h1 : r.fh ∈ v
    · rw [if_pos h1] at hg
      obtain ⟨i2, r2, v2, hm, hgeq⟩ := ih v g hg
      exact ⟨i2, r2, v2, List.mem_cons_of_mem _ hm, hgeq⟩
    · rw [if_neg h1] at hg
      by_cases h2 :
          1 < ((r.fn, r.p) :: (innerScan i r.ph th all (r.fh :: v)).1).length
      · rw [if_pos h2] at hg
        rcases List.mem_cons.mp hg with hg0 | hg1
        · exact ⟨i, r, v, List.mem_cons_self _ _, hg0⟩
        · obtain ⟨i2, r2, v2, hm, hgeq⟩ := ih _ g hg1
          exact ⟨i2, r2, v2, List.mem_cons_of_mem _ hm, hgeq⟩
      · rw [if_neg h2] at hg
        obtain ⟨i2, r2, v2, hm, hgeq⟩ := ih _ g hg
        exact ⟨i2, r2, v2, List.mem_cons_of_mem _ hm, hgeq⟩

theorem outerScan_min_len (all : List (Nat × VRec)) (th : Nat) :
    ∀ (l : List (Nat × VRec)) (v : List Nat) (g : List (String × String)),
      g ∈ outerScan all th l v → 2 ≤ g.length := by
  intro l
  induction l with
  | nil =>
    intro v g hg
    simp [outerScan] at hg
  | cons e rest ih =>
    intro v g hg
    obtain ⟨i, r⟩ := e
    rw [outerScan] at hg
    by_cases h1 : r.fh ∈ v
    · rw [if_pos h1] at hg
      exact ih v g hg
    · rw [if_neg h1] at hg
      by_cases h2 :
          1 < ((r.fn, r.p) :: (innerScan i r.ph th all (r.fh :: v)).1).length
      · rw [if_pos h2] at hg
        rcases List.mem_cons.mp hg with hg0 | hg1
        · rw [hg0]
          omega
        · exact ih _ g hg1
      · rw [if_neg h2] at hg
        exact ih _ g hg

theorem enumFromN_mem :
    ∀ (l : List VRec) (n j : Nat) (r : VRec), (j, r) ∈ enumFromN n l → r ∈ l := by
  intro l
  induction l with
  | nil =>
    intro n j r h
    simp [enumFromN] at h
  | cons a t ih =>
    intro n j r h
    rw [enumFromN] at h
    rcases List.mem_cons.mp h with h0 | h1
    · have : r = a := congrArg Prod.snd h0
      rw [this]
      exact List.mem_cons_self _ _
    · exact List.mem_cons_of_mem _ (ih (n + 1) j r h1)

theorem detectVisual_no_filter (files : List VRec) (th : Nat) :
    detectVisual files false false th =
      outerScan (enumFromN 0 files) th (enumFromN 0 files) [] := by
  have hf : files.filter
      (fun r => (!false || r.mt == "video") && (!false || r.mt == "photo")) =
      files := by
    simp
  simp only [detectVisual]
  rw [hf]

/-- C4: on fingerprints A, B, C with Hamming distances d(A,B)=3, d(A,C)=9,
d(B,C)=8 and threshold 5, `detect_visual` reports exactly one cluster,
{A, B}, and C's singleton cluster is discarded; and in general every
reported cluster has at least two members (singletons are dropped), is
headed by its seed, and every later member lies within the threshold of
that seed's fingerprint. -/
theorem detect_visual_c4 :
    ((hamming phA phB = 3 ∧ hamming phA phC = 9 ∧ hamming phB phC = 8) ∧
      detectVisual [vA, vB, vC] false false 5 =
        [[("A.jpg", "pA.jpg"), ("B.jpg", "pB.jpg")]]) ∧
    (∀ (files : List VRec) (th : Nat) (g : List (String × String)),
      g ∈ detectVisual files false false th → 2 ≤ g.length) ∧
    (∀ (files : List VRec) (th : Nat) (g : List (String × String)),
      g ∈ detectVisual files false false th →
      ∃ seed, seed ∈ files ∧ g.head? = some (seed.fn, seed.p) ∧
        ∀ x ∈ g.tail, ∃ r2, r2 ∈ files ∧ x = (r2.fn, r2.p) ∧
          hamming seed.ph r2.ph ≤ th) := by
  refine ⟨⟨⟨by decide, by decide, by decide⟩, by decide⟩, ?_, ?_⟩
  · intro files th g hg
    rw [detectVisual_no_filter] at hg
    exact outerScan_min_len _ th _ [] g hg
  · intro files th g hg
    rw [detectVisual_no_filter] at hg
    obtain ⟨i, r, v', hm, hgeq⟩ := outerScan_shape _ th _ [] g hg
    refine ⟨r, enumFromN_mem files 0 i r hm, ?_, ?_⟩
    · rw [hgeq]
      rfl
    · intro x hx
      rw [hgeq] at hx
      simp only [List.tail_cons] at hx
      obtain ⟨r2, ⟨j2, hj2⟩, hx2, hh⟩ := innerScan_sound i r.ph th _ _ x hx
      exact ⟨r2, enumFromN_mem files 0 j2 r2 hj2, hx2, hh⟩

/-- Witness for C4: the reported cluster of the concrete scenario has at
least two members. -/
theorem detect_visual_c4_witness :
    2 ≤ ([("A.jpg", "pA.jpg"), ("B.jpg", "pB.jpg")] :
      List (String × String)).length :=
  detect_visual_c4.2.1 [vA, vB, vC] 5
    [("A.jpg", "pA.jpg"), ("B.jpg", "pB.jpg")] (by decide)

/-! ## C5: copy completes before the record is committed -/

theorem scanInv_keep (mem : PathC) (s s' : ScanState) (h1 : s'.db = s.db)
    (h2 : s'.fs = s.fs) (h : ScanInv mem s) : ScanInv mem s' := by
  intro r hr
  rw [h1] at hr
  rw [h2]
  exact h r hr

theorem fsLookup_insert_isSome (fs : FS) (p q : PathC) (c : Nat)
    (h : (fsLookup fs q).isSome = true) :
    (fsLookup (fsInsert fs p c) q).isSome = true := by
  rw [fsLookup_insert]
  by_cases hqp : q = p
  · rw [if_pos hqp]
    rfl
  · rw [if_neg hqp]
    exact h

theorem addFileMetadata_cases (m : MetaDict) (db : List Row) :
    addFileMetadata m db = (db, false) ∨
    addFileMetadata m db = (db ++ [mkRow m], true) := by
  unfold addFileMetadata
  by_cases h : m.file_hash ∈ db.map Row.file_hash
  · rw [if_pos h]
    exact Or.inl rfl
  · rw [if_neg h]
    exact Or.inr rfl

theorem processCopyInsert_inv (mem : PathC) (f : SFile) (mt : String) (h : Nat)
    (destName : String) (pre : List ScanState) (s : ScanState)
    (hpre : ∀ s' ∈ pre, ScanInv mem s') (hs : ScanInv mem s) :
    ∀ s' ∈ (processCopyInsert mem f mt h destName pre s).states,
      ScanInv mem s' := by
  intro s' hs'
  by_cases hc : f.copyErr = true
  · simp only [processCopyInsert, hc, if_true] at hs'
    exact hpre s' hs'
  · have hsC : ScanInv mem
        { s with fs := fsInsert s.fs (pcJoin mem destName) f.content } := by
      intro r hr
      exact fsLookup_insert_isSome _ _ _ _ (hs r hr)
    rcases addFileMetadata_cases (mdOf mem f mt h destName s.clock) s.db with
      hadd | hadd
    · simp only [processCopyInsert, hc, hadd, if_false, Bool.false_eq_true,
        ite_false] at hs'
      rcases List.mem_append.mp hs' with h1 | h2
      · exact hpre s' h1
      · rcases List.mem_cons.mp h2 with h3 | h4
        · rw [h3]
          exact hsC
        · rcases List.mem_cons.mp h4 with h5 | h6
          · rw [h5]
            exact hsC
          · exact absurd h6 (List.not_mem_nil s')
    · simp only [processCopyInsert, hc, hadd, if_true] at hs'
      rcases List.mem_append.mp hs' with h1 | h2
      · exact hpre s' h1
      · rcases List.mem_cons.mp h2 with h3 | h4
        · rw [h3]
          exact hsC
        · rcases List.mem_cons.mp h4 with h5 | h6
          · rw [h5]
            intro r hr
            rcases List.mem_append.mp hr with hr1 | hr2
            · exact fsLookup_insert_isSome _ _ _ _ (hs r hr1)
            · have hreq : r = mkRow (mdOf mem f mt h destName s.clock) :=
                List.mem_singleton.mp hr2
              rw [hreq]
              show (fsLookup (fsInsert s.fs (pcJoin mem destName) f.content)
                (fromRelativePath
                  (toRelativePath (pcJoin mem destName) mem) mem)).isSome = true
              rw [fromRel_toRel_join, fsLookup_insert, if_pos rfl]
              rfl
          · exact absurd h6 (List.not_mem_nil s')

theorem processOne_inv (mem : PathC) (f : SFile) (s : ScanState)
    (hs : ScanInv mem s) :
    ∀ s' ∈ (processOne mem f s).states, ScanInv mem s' := by
  have hs1 : ScanInv mem { s with counter := s.counter + 1 } :=
    scanInv_keep mem s _ rfl rfl hs
  intro s' hs'
  by_cases hf : f.isFile = true
  · by_cases hmem : ".memory" ∈ f.dir ++ [f.name]
    · simp only [processOne, hf, hmem, not_true, if_false, if_true,
        Bool.true_eq_false, Bool.false_eq_true, ite_false, ite_true] at hs'
      simp only [List.mem_singleton] at hs'
      rw [hs']
      exact hs1
    · cases hmt : mtOf f with
      | none =>
        simp only [processOne, hf, hmem, hmt, not_true, Bool.true_eq_false, Bool.false_eq_true,
          ite_false, ite_true, if_false, if_true] at hs'
        simp only [List.mem_singleton] at hs'
        rw [hs']
        exact hs1
      | some mt =>
        by_cases hherr : f.hashErr = true
        · simp only [processOne, hf, hmem, hmt, hherr, not_true,
            Bool.true_eq_false, Bool.false_eq_true, ite_false, ite_true, if_false, if_true, List.mem_singleton] at hs'
          rw [hs']
          exact hs1
        · by_cases hmg : calculateFileHash f.content ∈
              ({ s with counter := s.counter + 1 } : ScanState).managed
          · simp only [processOne, hf, hmem, hmt, hherr, hmg, not_true,
              Bool.true_eq_false, Bool.false_eq_true, ite_false, ite_true, if_false, if_true, List.mem_singleton] at hs'
            rw [hs']
            exact hs1
          · cases hlk : fsLookup ({ s with counter := s.counter + 1} :
                ScanState).fs (pcJoin mem f.name) with
            | some c =>
              by_cases hhe : calculateFileHash c = calculateFileHash f.content
              · simp only [processOne, hf, hmem, hmt, hherr, hmg, hlk, hhe,
                  not_true, Bool.true_eq_false, Bool.false_eq_true, ite_false, ite_true, if_false,
                  if_true, List.mem_singleton] at hs'
                rw [hs']
                exact hs1
              · simp only [processOne, hf, hmem, hmt, hherr, hmg, hlk, hhe,
                  not_true, Bool.true_eq_false, Bool.false_eq_true, ite_false, ite_true, if_false,
                  if_true] at hs'
                refine processCopyInsert_inv mem f mt _ _ _ _ ?_ ?_ s' hs'
                · intro t ht
                  rcases List.mem_cons.mp ht with h1 | h2
                  · rw [h1]
                    exact hs1
                  · rcases List.mem_cons.mp h2 with h3 | h4
                    · rw [h3]
                      exact scanInv_keep mem s _ rfl rfl hs
                    · exact absurd h4 (List.not_mem_nil t)
                · exact scanInv_keep mem s _ rfl rfl hs
            | none =>
              simp only [processOne, hf, hmem, hmt, hherr, hmg, hlk, not_true,
                Bool.true_eq_false, Bool.false_eq_true, ite_false, ite_true, if_false,
                if_true] at hs'
              refine processCopyInsert_inv mem f mt _ _ _ _ ?_ ?_ s' hs'
              · intro t ht
                rcases List.mem_cons.mp ht with h1 | h2
                · rw [h1]
                  exact hs1
                · exact absurd h2 (List.not_mem_nil t)
              · exact hs1
  · simp only [processOne, hf, Bool.false_eq_true, not_false_eq_true,
      ite_true, if_true] at hs'
    exact absurd hs' (List.not_mem_nil s')

/-- C5: at every reachable state during a run — including every
intermediate state inside each per-file step, which is where an
interruption may strike — each committed row's stored path resolves to an
already-copied file: the copy completes before the record is committed, so
there is never a row pointing at a missing file (given the invariant held
at the start). -/
theorem copy_before_commit_c5 (mem : PathC) (files : List SFile)
    (s : ScanState) (hs : ScanInv mem s) :
    ∀ s' ∈ runTrace mem files s, ScanInv mem s' := by
  induction files generalizing s with
  | nil =>
    intro s' hs'
    simp only [runTrace, List.mem_singleton] at hs'
    rw [hs']
    exact hs
  | cons f rest ih =>
    intro s' hs'
    rw [runTrace] at hs'
    by_cases hok : (processOne mem f s).ok = true
    · rw [if_pos hok] at hs'
      rcases List.mem_cons.mp hs' with h0 | h1
      · rw [h0]
        exact hs
      · rcases List.mem_append.mp h1 with h2 | h3
        · exact processOne_inv mem f s hs s' h2
        · have hlast : ScanInv mem ((processOne mem f s).states.getLastD s) := by
            rcases getLastD_cases (processOne mem f s).states s with he | hm
            · rw [he]
              exact hs
            · exact processOne_inv mem f s hs _ hm
          exact ih _ hlast s' h3
    · rw [if_neg hok] at hs'
      rcases List.mem_cons.mp hs' with h0 | h1
      · rw [h0]
        exact hs
      · exact processOne_inv mem f s hs s' h1

/-- Witness for C5: the invariant holds at the final state of a concrete
two-file import into an empty catalog. -/
theorem copy_before_commit_c5_witness :
    ScanInv memW ((runTrace memW [f1, f2] st0).getLastD st0) := by
  have h0 : ScanInv memW st0 := by
    intro r hr
    exact absurd hr (List.not_mem_nil r)
  exact copy_before_commit_c5 memW [f1, f2] st0 h0 _ (by decide)

/-! ## C7: idempotent maintenance run -/

theorem amc_mem_old :
    ∀ (l cols : List String) (c : String), c ∈ cols →
      c ∈ (addMissingColumns l cols).1 := by
  intro l
  induction l with
  | nil =>
    intro cols c h
    exact h
  | cons a t ih =>
    intro cols c h
    rw [addMissingColumns]
    by_cases ha : a ∈ cols
    · rw [if_pos ha]
      exact ih cols c h
    · rw [if_neg ha]
      exact ih (cols ++ [a]) c (List.mem_append_left _ h)

theorem amc_mem_new :
    ∀ (l cols : List String) (c : String), c ∈ l →
      c ∈ (addMissingColumns l cols).1 := by
  intro l
  induction l with
  | nil =>
    intro cols c h
    exact absurd h (List.not_mem_nil c)
  | cons a t ih =>
    intro cols c h
    rw [addMissingColumns]
    rcases List.mem_cons.mp h with h0 | h1
    · subst h0
      by_cases ha : c ∈ cols
      · rw [if_pos ha]
        exact amc_mem_old t cols c ha
      · rw [if_neg ha]
        exact amc_mem_old t (cols ++ [c]) c
          (List.mem_append_right _ (List.mem_singleton.mpr rfl))
    · by_cases ha : a ∈ cols
      · rw [if_pos ha]
        exact ih cols c h1
      · rw [if_neg ha]
        exact ih (cols ++ [a]) c h1

theorem amc_zero :
    ∀ (l cols : List String), (∀ c ∈ l, c ∈ cols) →
      addMissingColumns l cols = (cols, 0) := by
  intro l
  induction l with
  | nil =>
    intro cols _
    rfl
  | cons a t ih =>
    intro cols h
    rw [addMissingColumns, if_pos (h a (List.mem_cons_self a t))]
    exact ih cols (fun c hc => h c (List.mem_cons_of_mem a hc))

theorem mpr_out_canon (mem : PathC) :
    ∀ (recs : List MigRec) (r : MigRec),
      r ∈ (migratePathsToRelative mem recs).1 →
      canonPath r.cur mem = r.cur ∧ canonPath r.orig mem = r.orig := by
  intro recs
  induction recs with
  | nil =>
    intro r h
    simp [migratePathsToRelative] at h
  | cons a t ih =>
    intro r h
    rw [migratePathsToRelative] at h
    by_cases hc : canonPath a.cur mem = a.cur ∧ canonPath a.orig mem = a.orig
    · rw [if_pos hc] at h
      rcases List.mem_cons.mp h with h0 | h1
      · rw [h0]
        exact hc
      · exact ih r h1
    · rw [if_neg hc] at h
      rcases List.mem_cons.mp h with h0 | h1
      · rw [h0]
        exact ⟨canonPath_fix a.cur mem, canonPath_fix a.orig mem⟩
      · exact ih r h1

theorem mpr_fixed_zero (mem : PathC) :
    ∀ (recs : List MigRec),
      (∀ r ∈ recs,
        canonPath r.cur mem = r.cur ∧ canonPath r.orig mem = r.orig) →
      migratePathsToRelative mem recs = (recs, 0) := by
  intro recs
  induction recs with
  | nil =>
    intro _
    rfl
  | cons a t ih =>
    intro h
    rw [migratePathsToRelative, if_pos (h a (List.mem_cons_self a t)),
      ih (fun r hr => h r (List.mem_cons_of_mem a hr))]

theorem mpr_hashes (mem : PathC) :
    ∀ (recs : List MigRec),
      (migratePathsToRelative mem recs).1.map MigRec.hash =
        recs.map MigRec.hash := by
  intro recs
  induction recs with
  | nil => rfl
  | cons a t ih =>
    rw [migratePathsToRelative]
    by_cases hc : canonPath a.cur mem = a.cur ∧ canonPath a.orig mem = a.orig
    · rw [if_pos hc]
      simp only [List.map_cons]
      rw [ih]
    · rw [if_neg hc]
      simp only [List.map_cons]
      rw [ih]

theorem updateCurByHash_hash_map (recs : List MigRec) (h : Nat) (v : PathC) :
    (updateCurByHash recs h v).map MigRec.hash = recs.map MigRec.hash := by
  simp only [updateCurByHash, List.map_map]
  apply List.map_congr_left
  intro r _
  by_cases hr : r.hash = h
  · simp [hr]
  · simp [hr]

theorem updateCurByHash_mem_ne (recs : List MigRec) (h : Nat) (v : PathC)
    (r : MigRec) (hne : ¬ r.hash = h) :
    r ∈ updateCurByHash recs h v ↔ r ∈ recs := by
  constructor
  · intro hm
    obtain ⟨r2, hr2, heq⟩ := List.mem_map.mp hm
    by_cases h2 : r2.hash = h
    · rw [if_pos h2] at heq
      have hh := congrArg MigRec.hash heq
      refine absurd ?_ hne
      rw [← hh]
      exact h2
    · rw [if_neg h2] at heq
      rw [← heq]
      exact hr2
  · intro hm
    refine List.mem_map.mpr ⟨r, hm, ?_⟩
    rw [if_neg hne]

/-- Branch elimination principle for one relocation step, mirroring the
decision structure of `core.migrate_files_to_memory`'s loop body. -/
theorem m2mStep_elim (mem : PathC) (e : Nat × PathC) (c : MigCtx)
    (P : MigCtx → Prop)
    (hskip1 : pcParent (fromRelativePath e.2 mem) = mem → P c)
    (hskip2 : ¬ pcParent (fromRelativePath e.2 mem) = mem →
      fsLookup c.fs (fromRelativePath e.2 mem) = none → P c)
    (hskip3 : ∀ content dc,
      ¬ pcParent (fromRelativePath e.2 mem) = mem →
      fsLookup c.fs (fromRelativePath e.2 mem) = some content →
      fsLookup c.fs (pcJoin mem (nameOf (fromRelativePath e.2 mem))) = some dc →
      calculateFileHash dc = calculateFileHash content → P c)
    (hmove0 : ∀ content,
      ¬ pcParent (fromRelativePath e.2 mem) = mem →
      fsLookup c.fs (fromRelativePath e.2 mem) = some content →
      fsLookup c.fs (pcJoin mem (nameOf (fromRelativePath e.2 mem))) = none →
      P { recs := updateCurByHash c.recs e.1
            (toRelativePath
              (pcJoin mem (nameOf (fromRelativePath e.2 mem))) mem)
          fs := fsInsert (fsErase c.fs (fromRelativePath e.2 mem))
            (pcJoin mem (nameOf (fromRelativePath e.2 mem))) content
          clock := c.clock
          moved := c.moved + 1
          collision := c.collision })
    (hmoveS : ∀ content dc,
      ¬ pcParent (fromRelativePath e.2 mem) = mem →
      fsLookup c.fs (fromRelativePath e.2 mem) = some content →
      fsLookup c.fs (pcJoin mem (nameOf (fromRelativePath e.2 mem))) = some dc →
      ¬ calculateFileHash dc = calculateFileHash content →
      P { recs := updateCurByHash c.recs e.1
            (toRelativePath
              (pcJoin mem
                (suffixedName (nameOf (fromRelativePath e.2 mem)) c.clock))
              mem)
          fs := fsInsert (fsErase c.fs (fromRelativePath e.2 mem))
            (pcJoin mem
              (suffixedName (nameOf (fromRelativePath e.2 mem)) c.clock))
            content
          clock := c.clock + 1
          moved := c.moved + 1
          collision := c.collision ||
            (fsLookup c.fs
              (pcJoin mem
                (suffixedName (nameOf (fromRelativePath e.2 mem))
                  c.clock))).isSome }) :
    P (m2mStep mem e c) := by
  rw [m2mStep]
  by_cases h1 : pcParent (fromRelativePath e.2 mem) = mem
  · rw [if_pos h1]
    exact hskip1 h1
  · rw [if_neg h1]
    cases h2 : fsLookup c.fs (fromRelativePath e.2 mem) with
    | none =>
      exact hskip2 h1 h2
    | some content =>
      cases h3 : fsLookup c.fs
          (pcJoin mem (nameOf (fromRelativePath e.2 mem))) with
      | none =>
        exact hmove0 content h1 h2 h3
      | some dc =>
        dsimp only
        split
        next h4 => exact hskip3 content dc h1 h2 h3 h4
        next h4 => exact hmoveS content dc h1 h2 h3 h4

theorem m2mStep_coll_back (mem : PathC) (e : Nat × PathC) (c : MigCtx)
    (h : (m2mStep mem e c).collision = false) : c.collision = false := by
  revert h
  refine m2mStep_elim mem e c (fun c' => c'.collision = false → c.collision = false)
    ?_ ?_ ?_ ?_ ?_
  · intro _ h
    exact h
  · intro _ _ h
    exact h
  · intro _ _ _ _ _ _ h
    exact h
  · intro _ _ _ _ h
    exact h
  · intro _ _ _ _ _ _ h
    exact (Bool.or_eq_false_iff.mp h).1

theorem m2mStep_hash_map (mem : PathC) (e : Nat × PathC) (c : MigCtx) :
    (m2mStep mem e c).recs.map MigRec.hash = c.recs.map MigRec.hash := by
  refine m2mStep_elim mem e c
    (fun c' => c'.recs.map MigRec.hash = c.recs.map MigRec.hash) ?_ ?_ ?_ ?_ ?_
  · intro _
    rfl
  · intro _ _
    rfl
  · intro _ _ _ _ _ _
    rfl
  · intro _ _ _ _
    exact updateCurByHash_hash_map c.recs e.1 _
  · intro _ _ _ _ _ _
    exact updateCurByHash_hash_map c.recs e.1 _

theorem m2mStep_mem_ne (mem : PathC) (e : Nat × PathC) (c : MigCtx)
    (r : MigRec) (hne : ¬ r.hash = e.1) :
    r ∈ (m2mStep mem e c).recs ↔ r ∈ c.recs := by
  refine m2mStep_elim mem e c (fun c' => (r ∈ c'.recs ↔ r ∈ c.recs))
    ?_ ?_ ?_ ?_ ?_
  · intro _
    exact Iff.rfl
  · intro _ _
    exact Iff.rfl
  · intro _ _ _ _ _ _
    exact Iff.rfl
  · intro _ _ _ _
    exact updateCurByHash_mem_ne c.recs e.1 _ r hne
  · intro _ _ _ _ _ _
    exact updateCurByHash_mem_ne c.recs e.1 _ r hne

theorem m2m_coll_back (mem : PathC) :
    ∀ (snap : List (Nat × PathC)) (c : MigCtx),
      (migrateFilesToMemory mem snap c).collision = false →
      c.collision = false := by
  intro snap
  induction snap with
  | nil =>
    intro c h
    exact h
  | cons e rest ih =>
    intro c h
    exact m2mStep_coll_back mem e c (ih (m2mStep mem e c) h)

theorem lookup_move (fs : FS) (absp dest : PathC) (content : Nat) (x : PathC) :
    fsLookup (fsInsert (fsErase fs absp) dest content) x =
      if x = dest then some content
      else if x = absp then none else fsLookup fs x := by
  rw [fsLookup_insert, fsLookup_erase]

/-- Moving a file from outside `.memory` to a fresh destination directly
inside `.memory` keeps every settled row settled. -/
theorem settled_pres_move (mem : PathC) (fs : FS) (absp dest : PathC)
    (content : Nat)
    (hpar : ¬ pcParent absp = mem)
    (hdestnone : fsLookup fs dest = none)
    (hdestpar : pcParent dest = mem)
    (p2 : PathC) (hset : settledCur mem fs p2) :
    settledCur mem (fsInsert (fsErase fs absp) dest content) p2 := by
  rcases hset with h | h | ⟨c1, c2, h1, h2, h3⟩
  · exact Or.inl h
  · by_cases hd : fromRelativePath p2 mem = dest
    · refine Or.inl ?_
      rw [hd]
      exact hdestpar
    · refine Or.inr (Or.inl ?_)
      rw [lookup_move, if_neg hd]
      by_cases ha : fromRelativePath p2 mem = absp
      · rw [if_pos ha]
      · rw [if_neg ha]
        exact h
  · by_cases hd : fromRelativePath p2 mem = dest
    · refine Or.inl ?_
      rw [hd]
      exact hdestpar
    · by_cases ha : fromRelativePath p2 mem = absp
      · refine Or.inr (Or.inl ?_)
        rw [lookup_move, if_neg hd, if_pos ha]
      · refine Or.inr (Or.inr ⟨c1, c2, ?_, ?_, h3⟩)
        · rw [lookup_move, if_neg hd, if_neg ha]
          exact h1
        · have hd2dest :
              ¬ pcJoin mem (nameOf (fromRelativePath p2 mem)) = dest := by
            intro hcontra
            rw [hcontra, hdestnone] at h2
            exact Option.noConfusion h2
          have hd2absp :
              ¬ pcJoin mem (nameOf (fromRelativePath p2 mem)) = absp := by
            intro hcontra
            exact hpar (hcontra ▸ pcParent_join mem _)
          rw [lookup_move, if_neg hd2dest, if_neg hd2absp]
          exact h2

/-- A step on a settled entry performs no write at all. -/
theorem m2mStep_settled_skip (mem : PathC) (e : Nat × PathC) (c : MigCtx)
    (hset : settledCur mem c.fs e.2) : m2mStep mem e c = c := by
  refine m2mStep_elim mem e c (fun c' => c' = c) ?_ ?_ ?_ ?_ ?_
  · intro _
    rfl
  · intro _ _
    rfl
  · intro _ _ _ _ _ _
    rfl
  · intro content h1 h2 h3
    rcases hset with h | h | ⟨c1, c2, hc1, hc2, _⟩
    · exact absurd h h1
    · rw [h] at h2
      exact Option.noConfusion h2
    · rw [hc2] at h3
      exact Option.noConfusion h3
  · intro content dc h1 h2 h3 h4
    rcases hset with h | h | ⟨c1, c2, hc1, hc2, hc3⟩
    · exact absurd h h1
    · rw [h] at h2
      exact Option.noConfusion h2
    · rw [hc1] at h2
      rw [hc2] at h3
      have e1 : c1 = content := Option.some.inj h2
      have e2 : c2 = dc := Option.some.inj h3
      rw [e1, e2] at hc3
      exact absurd hc3 h4

/-- A relocation pass over entries that are all settled is the identity. -/
theorem m2m_settled_zero (mem : PathC) :
    ∀ (snap : List (Nat × PathC)) (c : MigCtx),
      (∀ e ∈ snap, settledCur mem c.fs e.2) →
      migrateFilesToMemory mem snap c = c := by
  intro snap
  induction snap with
  | nil =>
    intro c _
    rfl
  | cons e rest ih =>
    intro c h
    rw [migrateFilesToMemory,
      m2mStep_settled_skip mem e c (h e (List.mem_cons_self e rest))]
    exact ih c (fun e' he' => h e' (List.mem_cons_of_mem e he'))

/-- When the step's suffixed destination (if any) is fresh — recorded by
the collision flag staying `false` — the step preserves settledness of
every row. -/
theorem m2mStep_settled_pres (mem : PathC) (e : Nat × PathC) (c : MigCtx)
    (hco : (m2mStep mem e c).collision = false)
    (p2 : PathC) (hset : settledCur mem c.fs p2) :
    settledCur mem (m2mStep mem e c).fs p2 := by
  revert hco
  refine m2mStep_elim mem e c
    (fun c' => c'.collision = false → settledCur mem c'.fs p2) ?_ ?_ ?_ ?_ ?_
  · intro _ _
    exact hset
  · intro _ _ _
    exact hset
  · intro _ _ _ _ _ _ _
    exact hset
  · intro content h1 h2 h3 _
    exact settled_pres_move mem c.fs _ _ content h1 h3
      (pcParent_join mem _) p2 hset
  · intro content dc h1 h2 h3 h4 hcol
    have hiss := (Bool.or_eq_false_iff.mp hcol).2
    have hfresh : fsLookup c.fs
        (pcJoin mem
          (suffixedName (nameOf (fromRelativePath e.2 mem)) c.clock)) =
        none := by
      cases hcase : fsLookup c.fs
          (pcJoin mem
            (suffixedName (nameOf (fromRelativePath e.2 mem)) c.clock)) with
      | none => rfl
      | some v =>
        rw [hcase] at hiss
        exact absurd hiss (by simp)
    exact settled_pres_move mem c.fs _ _ content h1 hfresh
      (pcParent_join mem _) p2 hset

/-- After its own entry is processed, a row is settled: each branch either
found it settled already or moved its file to a name directly inside
`.memory` and updated the stored path accordingly. -/
theorem m2mStep_settles (mem : PathC) (e : Nat × PathC) (c : MigCtx)
    (hN : (c.recs.map MigRec.hash).Nodup)
    (r0 : MigRec) (hr0 : r0 ∈ c.recs) (he : e = (r0.hash, r0.cur)) :
    ∀ r' ∈ (m2mStep mem e c).recs, r'.hash = e.1 →
      settledCur mem (m2mStep mem e c).fs r'.cur := by
  have he2 : e.2 = r0.cur := congrArg Prod.snd he
  have he1 : e.1 = r0.hash := congrArg Prod.fst he
  refine m2mStep_elim mem e c
    (fun c' => ∀ r' ∈ c'.recs, r'.hash = e.1 →
      settledCur mem c'.fs r'.cur) ?_ ?_ ?_ ?_ ?_
  · intro h1 r' hr' hh
    have hr : r' = r0 :=
      List.inj_on_of_nodup_map hN hr' hr0 (by rw [hh, he1])
    rw [hr, ← he2]
    exact Or.inl h1
  · intro h1 h2 r' hr' hh
    have hr : r' = r0 :=
      List.inj_on_of_nodup_map hN hr' hr0 (by rw [hh, he1])
    rw [hr, ← he2]
    exact Or.inr (Or.inl h2)
  · intro content dc h1 h2 h3 h4 r' hr' hh
    have hr : r' = r0 :=
      List.inj_on_of_nodup_map hN hr' hr0 (by rw [hh, he1])
    rw [hr, ← he2]
    exact Or.inr (Or.inr ⟨content, dc, h2, h3, h4⟩)
  · intro content h1 h2 h3 r' hr' hh
    obtain ⟨r2, hr2, heq⟩ := List.mem_map.mp hr'
    by_cases hh2 : r2.hash = e.1
    · rw [if_pos hh2] at heq
      rw [← heq]
      show settledCur mem _
        (toRelativePath (pcJoin mem (nameOf (fromRelativePath e.2 mem))) mem)
      refine Or.inl ?_
      rw [fromRel_toRel_join]
      exact pcParent_join mem _
    · rw [if_neg hh2] at heq
      rw [← heq] at hh
      exact absurd hh hh2
  · intro content dc h1 h2 h3 h4 r' hr' hh
    obtain ⟨r2, hr2, heq⟩ := List.mem_map.mp hr'
    by_cases hh2 : r2.hash = e.1
    · rw [if_pos hh2] at heq
      rw [← heq]
      show settledCur mem _
        (toRelativePath
          (pcJoin mem
            (suffixedName (nameOf (fromRelativePath e.2 mem)) c.clock)) mem)
      refine Or.inl ?_
      rw [fromRel_toRel_join]
      exact pcParent_join mem _
    · rw [if_neg hh2] at heq
      rw [← heq] at hh
      exact absurd hh hh2

/-- The main invariant of the relocation pass: starting from a snapshot of
all rows, with pairwise distinct primary keys and no suffix collision,
every row of the resulting state is settled with respect to the resulting
filesystem. -/
theorem m2m_all_settled (mem : PathC) :
    ∀ (snap : List (Nat × PathC)) (c : MigCtx),
      (c.recs.map MigRec.hash).Nodup →
      (∀ e ∈ snap, ∃ r ∈ c.recs, e = (r.hash, r.cur)) →
      (∀ r ∈ c.recs, (r.hash, r.cur) ∈ snap ∨ settledCur mem c.fs r.cur) →
      (snap.map Prod.fst).Nodup →
      (migrateFilesToMemory mem snap c).collision = false →
      ∀ r ∈ (migrateFilesToMemory mem snap c).recs,
        settledCur mem (migrateFilesToMemory mem snap c).fs r.cur := by
  intro snap
  induction snap with
  | nil =>
    intro c hN hsnap hset hsnapN hco r hr
    rcases hset r hr with h | h
    · exact absurd h (List.not_mem_nil _)
    · exact h
  | cons e rest ih =>
    intro c hN hsnap hset hsnapN hco r hr
    rw [migrateFilesToMemory] at hco hr ⊢
    simp only [List.map_cons, List.nodup_cons] at hsnapN
    obtain ⟨r0, hr0, he⟩ := hsnap e (List.mem_cons_self e rest)
    have hc'0 : (m2mStep mem e c).collision = false :=
      m2m_coll_back mem rest _ hco
    have hN' : ((m2mStep mem e c).recs.map MigRec.hash).Nodup := by
      rw [m2mStep_hash_map]
      exact hN
    have hsnap' : ∀ e' ∈ rest,
        ∃ r2 ∈ (m2mStep mem e c).recs, e' = (r2.hash, r2.cur) := by
      intro e' he'
      obtain ⟨r2, hr2, he2⟩ := hsnap e' (List.mem_cons_of_mem e he')
      have hne : ¬ r2.hash = e.1 := by
        intro hcontra
        have hfst : e'.1 = e.1 := by
          rw [he2]
          exact hcontra
        exact hsnapN.1 (hfst ▸ List.mem_map_of_mem Prod.fst he')
      exact ⟨r2, (m2mStep_mem_ne mem e c r2 hne).mpr hr2, he2⟩
    have hset' : ∀ r2 ∈ (m2mStep mem e c).recs,
        (r2.hash, r2.cur) ∈ rest ∨
          settledCur mem (m2mStep mem e c).fs r2.cur := by
      intro r2 hr2
      by_cases hh : r2.hash = e.1
      · exact Or.inr (m2mStep_settles mem e c hN r0 hr0 he r2 hr2 hh)
      · have hr2c : r2 ∈ c.recs := (m2mStep_mem_ne mem e c r2 hh).mp hr2
        rcases hset r2 hr2c with hmem | hsettled
        · rcases List.mem_cons.mp hmem with h0 | h1
          · exact absurd (congrArg Prod.fst h0) hh
          · exact Or.inl h1
        · exact Or.inr (m2mStep_settled_pres mem e c hc'0 r2.cur hsettled)
    exact ih (m2mStep mem e c) hN' hsnap' hset' hsnapN.2 hco r hr

theorem updateCur_canon (mem : PathC) (recs : List MigRec) (h' : Nat)
    (n : String) (hrecs : ∀ r ∈ recs, canonFixed mem r) :
    ∀ r ∈ updateCurByHash recs h' (toRelativePath (pcJoin mem n) mem),
      canonFixed mem r := by
  intro r hr
  obtain ⟨r2, hr2, heq⟩ := List.mem_map.mp hr
  by_cases hh2 : r2.hash = h'
  · rw [if_pos hh2] at heq
    rw [← heq]
    constructor
    · show canonPath (toRelativePath (pcJoin mem n) mem) mem =
        toRelativePath (pcJoin mem n) mem
      rw [toRelativePath_join, canonPath_rel]
    · exact (hrecs r2 hr2).2
  · rw [if_neg hh2] at heq
    rw [← heq]
    exact hrecs r2 hr2

theorem m2mStep_canon (mem : PathC) (e : Nat × PathC) (c : MigCtx)
    (h : ∀ r ∈ c.recs, canonFixed mem r) :
    ∀ r ∈ (m2mStep mem e c).recs, canonFixed mem r := by
  refine m2mStep_elim mem e c
    (fun c' => ∀ r ∈ c'.recs, canonFixed mem r) ?_ ?_ ?_ ?_ ?_
  · intro _
    exact h
  · intro _ _
    exact h
  · intro _ _ _ _ _ _
    exact h
  · intro _ _ _ _
    exact updateCur_canon mem c.recs e.1 _ h
  · intro _ _ _ _ _ _
    exact updateCur_canon mem c.recs e.1 _ h

theorem m2m_canon (mem : PathC) :
    ∀ (snap : List (Nat × PathC)) (c : MigCtx),
      (∀ r ∈ c.recs, canonFixed mem r) →
      ∀ r ∈ (migrateFilesToMemory mem snap c).recs, canonFixed mem r := by
  intro snap
  induction snap with
  | nil =>
    intro c h
    exact h
  | cons e rest ih =>
    intro c h
    exact ih (m2mStep mem e c) (m2mStep_canon mem e c h)

theorem mft_colsAdded (mem : PathC) (s : MigState) :
    (migrateFilesTable mem s).colsAdded =
      (addMissingColumns expectedColumns s.cols).2 := rfl

theorem mft_pathsRewritten (mem : PathC) (s : MigState) :
    (migrateFilesTable mem s).pathsRewritten =
      (migratePathsToRelative mem s.recs).2 := rfl

theorem mft_filesMoved (mem : PathC) (s : MigState) :
    (migrateFilesTable mem s).filesMoved =
      (migrateFilesToMemory mem
        ((migratePathsToRelative mem s.recs).1.map (fun r => (r.hash, r.cur)))
        ⟨(migratePathsToRelative mem s.recs).1, s.fs, s.clock, 0,
         false⟩).moved := rfl

theorem mft_collision (mem : PathC) (s : MigState) :
    (migrateFilesTable mem s).collision =
      (migrateFilesToMemory mem
        ((migratePathsToRelative mem s.recs).1.map (fun r => (r.hash, r.cur)))
        ⟨(migratePathsToRelative mem s.recs).1, s.fs, s.clock, 0,
         false⟩).collision := rfl

theorem mft_state_cols (mem : PathC) (s : MigState) :
    (migrateFilesTable mem s).state.cols =
      (addMissingColumns expectedColumns s.cols).1 := rfl

theorem mft_state_recs (mem : PathC) (s : MigState) :
    (migrateFilesTable mem s).state.recs =
      (migrateFilesToMemory mem
        ((migratePathsToRelative mem s.recs).1.map (fun r => (r.hash, r.cur)))
        ⟨(migratePathsToRelative mem s.recs).1, s.fs, s.clock, 0,
         false⟩).recs := rfl

theorem mft_state_fs (mem : PathC) (s : MigState) :
    (migrateFilesTable mem s).state.fs =
      (migrateFilesToMemory mem
        ((migratePathsToRelative mem s.recs).1.map (fun r => (r.hash, r.cur)))
        ⟨(migratePathsToRelative mem s.recs).1, s.fs, s.clock, 0,
         false⟩).fs := rfl

/-- C7: running the maintenance operation (additive schema migration, then
path canonicalization, then physical relocation) twice: provided row keys
are pairwise distinct (the table's primary-key constraint) and the first
run's generated timestamp suffixes were fresh (no collision, as recorded by
the instrumentation flag), the second run adds zero columns, rewrites zero
stored paths and moves zero files — after one run the operation has
converged. -/
theorem migration_idempotent_c7 (mem : PathC) (s : MigState)
    (hN : (s.recs.map MigRec.hash).Nodup)
    (hcoll : (migrateFilesTable mem s).collision = false) :
    (migrateFilesTable mem (migrateFilesTable mem s).state).colsAdded = 0 ∧
    (migrateFilesTable mem (migrateFilesTable mem s).state).pathsRewritten
      = 0 ∧
    (migrateFilesTable mem (migrateFilesTable mem s).state).filesMoved = 0 := by
  have hN1 : ((migratePathsToRelative mem s.recs).1.map MigRec.hash).Nodup := by
    rw [mpr_hashes]
    exact hN
  have hcoll1 : (migrateFilesToMemory mem
      ((migratePathsToRelative mem s.recs).1.map (fun r => (r.hash, r.cur)))
      ⟨(migratePathsToRelative mem s.recs).1, s.fs, s.clock, 0,
       false⟩).collision = false := by
    rw [← mft_collision]
    exact hcoll
  have hsnap : ∀ e ∈ (migratePathsToRelative mem s.recs).1.map
      (fun r => (r.hash, r.cur)),
      ∃ r ∈ (migratePathsToRelative mem s.recs).1, e = (r.hash, r.cur) := by
    intro e he
    obtain ⟨r, hr, heq⟩ := List.mem_map.mp he
    exact ⟨r, hr, heq.symm⟩
  have hset : ∀ r ∈ (migratePathsToRelative mem s.recs).1,
      (r.hash, r.cur) ∈ (migratePathsToRelative mem s.recs).1.map
        (fun r => (r.hash, r.cur)) ∨ settledCur mem s.fs r.cur :=
    fun r hr => Or.inl (List.mem_map_of_mem _ hr)
  have hsnapN : (((migratePathsToRelative mem s.recs).1.map
      (fun r => (r.hash, r.cur))).map Prod.fst).Nodup := by
    rw [List.map_map]
    exact hN1
  have hsettled := m2m_all_settled mem
    ((migratePathsToRelative mem s.recs).1.map (fun r => (r.hash, r.cur)))
    ⟨(migratePathsToRelative mem s.recs).1, s.fs, s.clock, 0, false⟩
    hN1 hsnap hset hsnapN hcoll1
  have hcanon1 : ∀ r ∈ (migrateFilesToMemory mem
      ((migratePathsToRelative mem s.recs).1.map (fun r => (r.hash, r.cur)))
      ⟨(migratePathsToRelative mem s.recs).1, s.fs, s.clock, 0, false⟩).recs,
      canonFixed mem r :=
    m2m_canon mem _ _ (fun r hr => mpr_out_canon mem s.recs r hr)
  have hfix := mpr_fixed_zero mem (migrateFilesTable mem s).state.recs (by
    intro r hr
    rw [mft_state_recs] at hr
    exact hcanon1 r hr)
  refine ⟨?_, ?_, ?_⟩
  · rw [mft_colsAdded]
    have hz := amc_zero expectedColumns (migrateFilesTable mem s).state.cols
      (by
        intro c hc
        rw [mft_state_cols]
        exact amc_mem_new expectedColumns s.cols c hc)
    rw [hz]
  · rw [mft_pathsRewritten, hfix]
  · rw [mft_filesMoved, hfix]
    have hzero := m2m_settled_zero mem
      ((migrateFilesTable mem s).state.recs.map (fun r => (r.hash, r.cur)))
      ⟨(migrateFilesTable mem s).state.recs,
       (migrateFilesTable mem s).state.fs,
       (migrateFilesTable mem s).state.clock, 0, false⟩
      (by
        intro e he
        obtain ⟨r, hr, heq⟩ := List.mem_map.mp he
        rw [← heq]
        show settledCur mem (migrateFilesTable mem s).state.fs r.cur
        rw [mft_state_recs] at hr
        rw [mft_state_fs]
        exact hsettled r hr)
    show (migrateFilesToMemory mem
      ((migrateFilesTable mem s).state.recs.map (fun r => (r.hash, r.cur)))
      ⟨(migrateFilesTable mem s).state.recs,
       (migrateFilesTable mem s).state.fs,
       (migrateFilesTable mem s).state.clock, 0, false⟩).moved = 0
    rw [hzero]

/-- Witness for C7 at a concrete catalog: one row whose file lives outside
`.memory`; the first run migrates everything and the second performs zero
writes. -/
theorem migration_idempotent_c7_witness :
    (migrateFilesTable memW (migrateFilesTable memW migW).state).colsAdded
      = 0 ∧
    (migrateFilesTable memW
      (migrateFilesTable memW migW).state).pathsRewritten = 0 ∧
    (migrateFilesTable memW (migrateFilesTable memW migW).state).filesMoved
      = 0 :=
  migration_idempotent_c7 memW migW (by decide) (by decide)

end Memory
